import Mathlib

/-!
Shallow embedding of the candidate-selection module
`dense-mapping-selection.cc` from the maplab dense-mapping constraints
plugin, together with theorems about its filtering passes.

Modelling choices:
* Vertex ids and edge ids are natural numbers; 3D positions and the
  switch-variable / distance scalars are rationals.
* The pose graph (`vi_map::VIMap`) is modelled by its loop-closure edge
  list (the only edge type the module touches) plus a total position
  function for vertices (`getVertex(...).get_p_M_I()`).
* `std::set<EdgeId>` accumulation is modelled by a `List ℕ` accumulator;
  only membership in the set is ever used (for `removeEdge`), so possible
  duplicates in the list are semantically irrelevant.
* The random shuffle of `filter_candidates_randomly` is injected as an
  explicit permutation `perm` of the index list `List.range n`, standing
  for the shuffled vector of list iterators.
* The Euclidean comparison `(a - b).norm() > d` is embedded without
  square roots: for a nonnegative norm, `‖v‖ > d ↔ d < 0 ∨ d² < ‖v‖²`.
-/

namespace DenseMapping

/-- A 3D position (`Eigen::Vector3d`), with rational coordinates. -/
structure Vec3 where
  x : ℚ
  y : ℚ
  z : ℚ
deriving DecidableEq, Repr

/-- Squared Euclidean distance between two positions. -/
def distSq (p q : Vec3) : ℚ :=
  (p.x - q.x) * (p.x - q.x) + (p.y - q.y) * (p.y - q.y) +
    (p.z - q.z) * (p.z - q.z)

/-- Embedding of `(p - q).norm() > d`: for the nonnegative Euclidean norm
this holds iff `d < 0` or `d * d < ‖p - q‖²`. -/
def normGt (p q : Vec3) (d : ℚ) : Bool :=
  decide (d < 0) || decide (d * d < distSq p q)

/-- A directed loop-closure edge (`vi_map::LoopClosureEdge`):
edge id, `from()` vertex, `to()` vertex, and `getSwitchVariable()`. -/
structure LoopClosureEdge where
  id : ℕ
  efrom : ℕ
  eto : ℕ
  switchVariable : ℚ
deriving DecidableEq, Repr

/-- The pose graph handle (`vi_map::VIMap`), restricted to what the
selection module reads: the loop-closure edges and vertex positions. -/
structure VIMap where
  edges : List LoopClosureEdge
  p_M_I : ℕ → Vec3

/-- One side of an alignment candidate: the closest vertex id. -/
structure AlignmentCandidate where
  closest_vertex_id : ℕ
deriving DecidableEq, Repr

/-- `AlignmentCandidatePair`: two candidate sides plus the opaque
`isValid()` predicate, modelled as a field. -/
structure AlignmentCandidatePair where
  candidate_A : AlignmentCandidate
  candidate_B : AlignmentCandidate
  isValid : Bool
deriving DecidableEq, Repr

/-- `SelectionConfig` (the fields read by the selection module). -/
structure SelectionConfig where
  recompute_all_constraints : Bool
  recompute_invalid_constraints : Bool
  constraint_min_switch_variable_value : ℚ
  max_number_of_candidates : ℤ
  filter_strategy : String
  min_distance_to_next_candidate : ℚ

/-- `map.getOutgoingOfType(kLoopClosure, A)`: all loop-closure edges whose
`from()` is `A`. -/
def getOutgoingLcEdges (m : VIMap) (A : ℕ) : List LoopClosureEdge :=
  m.edges.filter (fun e => e.efrom = A)

/-- One iteration of the loop body of `hasGoodLoopClosureEdgeFromAToB`:
skip edges not going to `B`; otherwise classify against the threshold,
conditionally record the edge id for deletion, and accumulate goodness. -/
def hasGoodEdgeStep (config : SelectionConfig) (B : ℕ)
    (acc : Bool × List ℕ) (e : LoopClosureEdge) : Bool × List ℕ :=
  if e.eto ≠ B then acc
  else
    let is_good_edge :=
      decide (config.constraint_min_switch_variable_value ≤ e.switchVariable)
    let del :=
      if (!is_good_edge && config.recompute_invalid_constraints) ||
          config.recompute_all_constraints then
        e.id :: acc.2
      else acc.2
    (acc.1 || is_good_edge, del)

/-- `hasGoodLoopClosureEdgeFromAToB(config, map, A, B, &del)`: scans the
loop-closure edges outgoing from `A`, returns whether a good `A → B` edge
exists and the updated deletion set. -/
def hasGoodLoopClosureEdgeFromAToB (config : SelectionConfig) (m : VIMap)
    (A B : ℕ) (del : List ℕ) : Bool × List ℕ :=
  (getOutgoingLcEdges m A).foldl (hasGoodEdgeStep config B) (false, del)

/-- The short-circuiting disjunction
`hasGood(A,B,&del) || hasGood(B,A,&del)` from the quality pass: the second
directional call runs only when the first one returned `false`. -/
def hasGoodEdgeEither (config : SelectionConfig) (m : VIMap)
    (A B : ℕ) (del : List ℕ) : Bool × List ℕ :=
  let r1 := hasGoodLoopClosureEdgeFromAToB config m A B del
  if r1.1 then r1
  else hasGoodLoopClosureEdgeFromAToB config m B A r1.2

/-- The erase-while-iterating loop of `filter_candidates_based_on_quality`:
drops invalid candidates, drops candidates with a good prior edge unless
`recompute_all_constraints`, and threads the deletion set through. Returns
the kept candidates and the final deletion set. -/
def qualityLoop (config : SelectionConfig) (m : VIMap) :
    List AlignmentCandidatePair → List ℕ →
      List AlignmentCandidatePair × List ℕ
  | [], del => ([], del)
  | c :: rest, del =>
    if !c.isValid then qualityLoop config m rest del
    else
      let r := hasGoodEdgeEither config m c.candidate_A.closest_vertex_id
        c.candidate_B.closest_vertex_id del
      if r.1 && !config.recompute_all_constraints then
        qualityLoop config m rest r.2
      else
        let rec' := qualityLoop config m rest r.2
        (c :: rec'.1, rec'.2)

/-- `filter_candidates_based_on_quality`: run the quality scan, then, if
`recompute_all_constraints || recompute_invalid_constraints`, remove every
edge in the accumulated deletion set from the graph. Returns the updated
graph and the surviving candidates. -/
def filter_candidates_based_on_quality (config : SelectionConfig)
    (m : VIMap) (cands : List AlignmentCandidatePair) :
    VIMap × List AlignmentCandidatePair :=
  let r := qualityLoop config m cands []
  let m' :=
    if config.recompute_all_constraints ||
        config.recompute_invalid_constraints then
      { m with edges := m.edges.filter (fun e => decide (e.id ∉ r.2)) }
    else m
  (m', r.1)

/-- `filter_candidates_randomly`: given the shuffled order `perm` of the
candidate indices (the shuffled iterator vector), erase the elements at
the first `n - min n k` shuffled indices from the list. -/
def filter_candidates_randomly (max_number_of_candidates : ℕ)
    (perm : List ℕ) (cands : List AlignmentCandidatePair) :
    List AlignmentCandidatePair :=
  let n := cands.length
  let toDelete := perm.take (n - min n max_number_of_candidates)
  ((cands.enum).filter (fun p => decide (p.1 ∉ toDelete))).map Prod.snd

/-- The while-loop of `filter_candidates_based_on_distance`, carrying the
`candidate_positions` vector of already-accepted positions: accept a
candidate iff its `candidate_A` vertex position is farther than the
minimum distance from every accepted position, erase it otherwise, and
break (returning the remaining list unexamined) once the accepted count
reaches the cap. -/
def distanceLoop (k : ℕ) (d : ℚ) (m : VIMap) :
    List AlignmentCandidatePair → List Vec3 → List AlignmentCandidatePair
  | [], _ => []
  | c :: rest, candidate_positions =>
    let position_A := m.p_M_I c.candidate_A.closest_vertex_id
    let valid_candidate :=
      candidate_positions.all (fun p => normGt position_A p d)
    if valid_candidate then
      let positions' := candidate_positions ++ [position_A]
      if k ≤ positions'.length then c :: rest
      else c :: distanceLoop k d m rest positions'
    else distanceLoop k d m rest candidate_positions

/-- `filter_candidates_based_on_distance`: the greedy spatial suppression
pass, started with an empty accepted-positions vector. -/
def filter_candidates_based_on_distance (k : ℕ) (d : ℚ) (m : VIMap)
    (cands : List AlignmentCandidatePair) : List AlignmentCandidatePair :=
  distanceLoop k d m cands []

/-- `filter_candidates_based_on_strategy`: no-op for a negative cap,
dispatch on `filter_strategy`, and (after `LOG(ERROR)`) no filtering for
an unrecognized strategy. -/
def filter_candidates_based_on_strategy (config : SelectionConfig)
    (m : VIMap) (perm : List ℕ) (cands : List AlignmentCandidatePair) :
    List AlignmentCandidatePair :=
  if config.max_number_of_candidates < 0 then cands
  else if config.filter_strategy = "random" then
    filter_candidates_randomly config.max_number_of_candidates.toNat perm
      cands
  else if config.filter_strategy = "distance" then
    filter_candidates_based_on_distance config.max_number_of_candidates.toNat
      config.min_distance_to_next_candidate m cands
  else cands

/-- `selectAlignmentCandidatePairs`: quality pass, then strategy pass over
the same collection; always returns `true`. The result is the success
flag, the possibly-mutated graph and the final candidate list. -/
def selectAlignmentCandidatePairs (config : SelectionConfig) (m : VIMap)
    (perm : List ℕ) (cands : List AlignmentCandidatePair) :
    Bool × VIMap × List AlignmentCandidatePair :=
  let q := filter_candidates_based_on_quality config m cands
  let s := filter_candidates_based_on_strategy config q.1 perm q.2
  (true, q.1, s)

/-- A valid candidate pair with the given closest-vertex ids. -/
def exPair (a b : ℕ) : AlignmentCandidatePair := ⟨⟨a⟩, ⟨b⟩, true⟩

/-- Vertex positions of the end-to-end selection example. -/
def exPos5 : ℕ → Vec3
  | 0 => ⟨0, 0, 0⟩
  | 1 => ⟨1, 0, 0⟩
  | 2 => ⟨5, 0, 0⟩
  | 3 => ⟨5, 1, 0⟩
  | _ => ⟨10, 0, 0⟩

/-- Graph of the end-to-end example: those positions, no edges. -/
def exMap5 : VIMap := ⟨[], exPos5⟩

/-- The five example candidates, in generation order. -/
def exCands5 : List AlignmentCandidatePair :=
  [exPair 0 10, exPair 1 11, exPair 2 12, exPair 3 13, exPair 4 14]

/-- The example configuration: distance strategy, cap 3, minimum
distance 2. -/
def exConfig5 : SelectionConfig := ⟨false, false, 1, 3, "distance", 2⟩

/-- A graph with every vertex at the origin and no edges. -/
def exMapZero : VIMap := ⟨[], fun _ => ⟨0, 0, 0⟩⟩

/-- A graph with one bad (switch variable 0) and one good (switch
variable 5) loop-closure edge from vertex 0 to vertex 1. -/
def exMapEdges : VIMap :=
  ⟨[⟨0, 0, 1, 0⟩, ⟨1, 0, 1, 5⟩], fun _ => ⟨0, 0, 0⟩⟩

/-- Configuration recomputing invalid constraints only (threshold 1). -/
def exConfigInv : SelectionConfig := ⟨false, true, 1, -1, "", 0⟩

/-- Configuration with both recompute flags off (threshold 1). -/
def exConfigOff : SelectionConfig := ⟨false, false, 1, -1, "", 0⟩

/-- The condition under which the scan records an inspected edge for
deletion. -/
def markedForDeletion (config : SelectionConfig) (e : LoopClosureEdge) :
    Prop :=
  (¬ config.constraint_min_switch_variable_value ≤ e.switchVariable ∧
      config.recompute_invalid_constraints = true) ∨
    config.recompute_all_constraints = true

/-- An edge connects the two vertices of a candidate, in one direction or
the other. -/
def edgeBetween (c : AlignmentCandidatePair) (e : LoopClosureEdge) : Prop :=
  (e.efrom = c.candidate_A.closest_vertex_id ∧
      e.eto = c.candidate_B.closest_vertex_id) ∨
    (e.efrom = c.candidate_B.closest_vertex_id ∧
      e.eto = c.candidate_A.closest_vertex_id)

/-- The combined two-directional goodness test, as a pure function of the
graph and the two vertices. -/
def hasGoodPure (config : SelectionConfig) (m : VIMap) (A B : ℕ) : Bool :=
  (hasGoodLoopClosureEdgeFromAToB config m A B []).1 ||
    (hasGoodLoopClosureEdgeFromAToB config m B A []).1

/-- The retention predicate effectively applied by the quality scan: keep
a candidate iff it is valid and there is no good prior edge (in either
direction) unless all constraints are being recomputed. -/
def keepQuality (config : SelectionConfig) (m : VIMap)
    (c : AlignmentCandidatePair) : Bool :=
  c.isValid && !(hasGoodPure config m c.candidate_A.closest_vertex_id
      c.candidate_B.closest_vertex_id &&
    !config.recompute_all_constraints)

/-- Two candidates have their `candidate_A` vertex positions strictly
farther apart than `d`. -/
def farApart (d : ℚ) (m : VIMap) (c1 c2 : AlignmentCandidatePair) :
    Prop :=
  normGt (m.p_M_I c1.candidate_A.closest_vertex_id)
    (m.p_M_I c2.candidate_A.closest_vertex_id) d = true

/-- Distance strategy with cap 0 and minimum distance 2 (threshold 1). -/
def exConfigCap0 : SelectionConfig := ⟨false, false, 1, 0, "distance", 2⟩

/-- A configuration with an unrecognized filter strategy and cap 0. -/
def exConfigFoo : SelectionConfig := ⟨false, false, 1, 0, "foo", 0⟩

/-- The goodness flag computed by the edge-scan fold: it does not depend
on the deletion accumulator and records whether some scanned edge goes to
`B` with switch variable at least the threshold. -/
theorem hasGoodEdgeStep_foldl_fst (config : SelectionConfig) (B : ℕ)
    (es : List LoopClosureEdge) :
    ∀ (b : Bool) (del : List ℕ),
      (es.foldl (hasGoodEdgeStep config B) (b, del)).1 =
        (b || es.any (fun e => decide (e.eto = B) &&
          decide (config.constraint_min_switch_variable_value ≤
            e.switchVariable))) := by
  induction es with
  | nil => intro b del; simp
  | cons e es ih =>
    intro b del
    by_cases h : e.eto = B
    · simp [List.foldl_cons, hasGoodEdgeStep, h, ih, Bool.or_assoc]
    · simp [List.foldl_cons, hasGoodEdgeStep, h, ih]

/-- Characterization of the boolean returned by
`hasGoodLoopClosureEdgeFromAToB`: true iff some loop-closure edge from `A`
to `B` meets the switch-variable threshold. -/
theorem hasGoodLoopClosureEdgeFromAToB_fst (config : SelectionConfig)
    (m : VIMap) (A B : ℕ) (del : List ℕ) :
    (hasGoodLoopClosureEdgeFromAToB config m A B del).1 = true ↔
      ∃ e ∈ m.edges, e.efrom = A ∧ e.eto = B ∧
        config.constraint_min_switch_variable_value ≤ e.switchVariable := by
  unfold hasGoodLoopClosureEdgeFromAToB getOutgoingLcEdges
  rw [hasGoodEdgeStep_foldl_fst]
  simp only [Bool.false_or, List.any_eq_true, List.mem_filter,
    Bool.and_eq_true, decide_eq_true_eq]
  constructor
  · rintro ⟨e, ⟨he, hA⟩, hB, hsv⟩
    exact ⟨e, he, hA, hB, hsv⟩
  · rintro ⟨e, he, hA, hB, hsv⟩
    exact ⟨e, ⟨he, hA⟩, hB, hsv⟩

/-- Every id in the deletion accumulator after the edge-scan fold was
already there or comes from a scanned edge to `B` satisfying the deletion
condition. -/
theorem hasGoodEdgeStep_foldl_snd (config : SelectionConfig) (B : ℕ)
    (es : List LoopClosureEdge) :
    ∀ (b : Bool) (del : List ℕ) (x : ℕ),
      x ∈ (es.foldl (hasGoodEdgeStep config B) (b, del)).2 →
        x ∈ del ∨ ∃ e ∈ es, e.eto = B ∧ x = e.id ∧
          markedForDeletion config e := by
  induction es with
  | nil => intro b del x hx; exact Or.inl hx
  | cons e es ih =>
    intro b del x hx
    rw [List.foldl_cons] at hx
    by_cases h : e.eto = B
    · simp only [hasGoodEdgeStep, h, ne_eq, not_true_eq_false, if_false] at hx
      by_cases hc : (!decide (config.constraint_min_switch_variable_value ≤
            e.switchVariable) && config.recompute_invalid_constraints) ||
          config.recompute_all_constraints
      · simp only [hc, if_true] at hx
        rcases ih _ _ _ hx with hdel | ⟨e', he', hB', hid', hcond'⟩
        · rcases List.mem_cons.mp hdel with rfl | hdel
          · refine Or.inr ⟨e, List.mem_cons_self e es, h, rfl, ?_⟩
            rcases Bool.or_eq_true_iff.mp hc with hl | hr
            · rcases Bool.and_eq_true_iff.mp hl with ⟨hg, hi⟩
              exact Or.inl ⟨by simpa using hg, hi⟩
            · exact Or.inr hr
          · exact Or.inl hdel
        · exact Or.inr ⟨e', List.mem_cons_of_mem e he', hB', hid', hcond'⟩
      · simp only [hc, if_false] at hx
        rcases ih _ _ _ hx with hdel | ⟨e', he', hB', hid', hcond'⟩
        · exact Or.inl hdel
        · exact Or.inr ⟨e', List.mem_cons_of_mem e he', hB', hid', hcond'⟩
    · simp only [hasGoodEdgeStep, h, ne_eq, not_false_eq_true, if_true] at hx
      rcases ih _ _ _ hx with hdel | ⟨e', he', hB', hid', hcond'⟩
      · exact Or.inl hdel
      · exact Or.inr ⟨e', List.mem_cons_of_mem e he', hB', hid', hcond'⟩

/-- Every id added to the deletion set by one directional call of
`hasGoodLoopClosureEdgeFromAToB` comes from an `A → B` edge satisfying the
deletion condition. -/
theorem hasGoodLoopClosureEdgeFromAToB_snd (config : SelectionConfig)
    (m : VIMap) (A B : ℕ) (del : List ℕ) (x : ℕ)
    (hx : x ∈ (hasGoodLoopClosureEdgeFromAToB config m A B del).2) :
    x ∈ del ∨ ∃ e ∈ m.edges, e.efrom = A ∧ e.eto = B ∧ x = e.id ∧
      markedForDeletion config e := by
  unfold hasGoodLoopClosureEdgeFromAToB at hx
  rcases hasGoodEdgeStep_foldl_snd config B _ _ _ _ hx with
    hdel | ⟨e, he, hB, hid, hcond⟩
  · exact Or.inl hdel
  · rcases List.mem_filter.mp he with ⟨he', hA⟩
    exact Or.inr ⟨e, he', by simpa using hA, hB, hid, hcond⟩

/-- Every id added to the deletion set by the two directional calls comes
from an edge between `A` and `B` (in one direction or the other)
satisfying the deletion condition. -/
theorem hasGoodEdgeEither_snd (config : SelectionConfig) (m : VIMap)
    (A B : ℕ) (del : List ℕ) (x : ℕ)
    (hx : x ∈ (hasGoodEdgeEither config m A B del).2) :
    x ∈ del ∨ ∃ e ∈ m.edges,
      ((e.efrom = A ∧ e.eto = B) ∨ (e.efrom = B ∧ e.eto = A)) ∧
      x = e.id ∧ markedForDeletion config e := by
  unfold hasGoodEdgeEither at hx
  by_cases h1 : (hasGoodLoopClosureEdgeFromAToB config m A B del).1
  · simp only [h1, if_true] at hx
    rcases hasGoodLoopClosureEdgeFromAToB_snd config m A B del x hx with
      hdel | ⟨e, he, hA, hB, hid, hcond⟩
    · exact Or.inl hdel
    · exact Or.inr ⟨e, he, Or.inl ⟨hA, hB⟩, hid, hcond⟩
  · simp only [h1, if_false] at hx
    rcases hasGoodLoopClosureEdgeFromAToB_snd config m B A _ x hx with
      hdel | ⟨e, he, hA, hB, hid, hcond⟩
    · rcases hasGoodLoopClosureEdgeFromAToB_snd config m A B del x hdel with
        hdel' | ⟨e, he, hA, hB, hid, hcond⟩
      · exact Or.inl hdel'
      · exact Or.inr ⟨e, he, Or.inl ⟨hA, hB⟩, hid, hcond⟩
    · exact Or.inr ⟨e, he, Or.inr ⟨hA, hB⟩, hid, hcond⟩

/-- Every id in the deletion set accumulated by the quality scan comes
from an edge between the vertices of some valid candidate, satisfying the
deletion condition. -/
theorem qualityLoop_snd (config : SelectionConfig) (m : VIMap)
    (cands : List AlignmentCandidatePair) :
    ∀ (del : List ℕ) (x : ℕ), x ∈ (qualityLoop config m cands del).2 →
      x ∈ del ∨ ∃ c ∈ cands, c.isValid = true ∧ ∃ e ∈ m.edges,
        edgeBetween c e ∧ x = e.id ∧ markedForDeletion config e := by
  induction cands with
  | nil => intro del x hx; exact Or.inl hx
  | cons c rest ih =>
    intro del x hx
    cases hv : c.isValid with
    | false =>
      simp only [qualityLoop, hv, Bool.not_false, if_true] at hx
      rcases ih del x hx with hdel | ⟨c', hc', hrest⟩
      · exact Or.inl hdel
      · exact Or.inr ⟨c', List.mem_cons_of_mem c hc', hrest⟩
    | true =>
      simp only [qualityLoop, hv, Bool.not_true, if_false] at hx
      by_cases hb : ((hasGoodEdgeEither config m
          c.candidate_A.closest_vertex_id
          c.candidate_B.closest_vertex_id del).1 &&
          !config.recompute_all_constraints) = true
      · rw [if_pos hb] at hx
        rcases ih _ x hx with hdel | ⟨c', hc', hv', hrest⟩
        · rcases hasGoodEdgeEither_snd config m _ _ del x hdel with
            hdel' | ⟨e, he, hdir, hid, hcond⟩
          · exact Or.inl hdel'
          · exact Or.inr ⟨c, List.mem_cons_self c rest, hv, e, he, hdir,
              hid, hcond⟩
        · exact Or.inr ⟨c', List.mem_cons_of_mem c hc', hv', hrest⟩
      · rw [if_neg hb] at hx
        rcases ih _ x hx with hdel | ⟨c', hc', hv', hrest⟩
        · rcases hasGoodEdgeEither_snd config m _ _ del x hdel with
            hdel' | ⟨e, he, hdir, hid, hcond⟩
          · exact Or.inl hdel'
          · exact Or.inr ⟨c, List.mem_cons_self c rest, hv, e, he, hdir,
              hid, hcond⟩
        · exact Or.inr ⟨c', List.mem_cons_of_mem c hc', hv', hrest⟩

/-- The goodness flag of a directional call does not depend on the
incoming deletion set. -/
theorem hasGoodLoopClosureEdgeFromAToB_fst_del (config : SelectionConfig)
    (m : VIMap) (A B : ℕ) (del : List ℕ) :
    (hasGoodLoopClosureEdgeFromAToB config m A B del).1 =
      (hasGoodLoopClosureEdgeFromAToB config m A B []).1 := by
  unfold hasGoodLoopClosureEdgeFromAToB
  rw [hasGoodEdgeStep_foldl_fst, hasGoodEdgeStep_foldl_fst]

/-- The short-circuiting disjunction of the two directional calls computes
`hasGoodPure`, whatever the deletion accumulator. -/
theorem hasGoodEdgeEither_fst (config : SelectionConfig) (m : VIMap)
    (A B : ℕ) (del : List ℕ) :
    (hasGoodEdgeEither config m A B del).1 = hasGoodPure config m A B := by
  unfold hasGoodEdgeEither hasGoodPure
  have hAB := hasGoodLoopClosureEdgeFromAToB_fst_del config m A B del
  by_cases h1 : (hasGoodLoopClosureEdgeFromAToB config m A B del).1 = true
  · rw [if_pos h1, h1, ← hAB, h1]
    simp
  · rw [if_neg h1]
    have h1' : (hasGoodLoopClosureEdgeFromAToB config m A B []).1 = false :=
      by rw [← hAB]; simpa using h1
    rw [hasGoodLoopClosureEdgeFromAToB_fst_del config m B A _, h1']
    simp

/-- The quality scan keeps exactly the candidates satisfying
`keepQuality`, in their original order. -/
theorem qualityLoop_fst (config : SelectionConfig) (m : VIMap)
    (cands : List AlignmentCandidatePair) :
    ∀ del : List ℕ, (qualityLoop config m cands del).1 =
      cands.filter (keepQuality config m) := by
  induction cands with
  | nil => intro del; rfl
  | cons c rest ih =>
    intro del
    cases hv : c.isValid with
    | false =>
      simp [qualityLoop, hv, keepQuality, ih]
    | true =>
      simp only [qualityLoop, hv, Bool.not_true]
      rw [if_neg Bool.false_ne_true, List.filter_cons]
      by_cases hb : ((hasGoodEdgeEither config m
          c.candidate_A.closest_vertex_id
          c.candidate_B.closest_vertex_id del).1 &&
          !config.recompute_all_constraints) = true
      · rw [if_pos hb]
        have hk : keepQuality config m c = false := by
          rcases Bool.and_eq_true_iff.mp hb with ⟨h1, h2⟩
          have hpure : hasGoodPure config m
              c.candidate_A.closest_vertex_id
              c.candidate_B.closest_vertex_id = true := by
            rw [← hasGoodEdgeEither_fst config m
              c.candidate_A.closest_vertex_id
              c.candidate_B.closest_vertex_id del]
            exact h1
          have h2' : config.recompute_all_constraints = false := by
            simpa using h2
          simp [keepQuality, hv, hpure, h2']
        simp [hk, ih]
      · rw [if_neg hb]
        have hk : keepQuality config m c = true := by
          have hx : (hasGoodPure config m c.candidate_A.closest_vertex_id
              c.candidate_B.closest_vertex_id &&
              !config.recompute_all_constraints) = false := by
            rw [← hasGoodEdgeEither_fst config m
              c.candidate_A.closest_vertex_id
              c.candidate_B.closest_vertex_id del]
            simpa using hb
          simp [keepQuality, hv, hx]
        simp [hk, ih]

/-- C8: `hasGoodLoopClosureEdgeFromAToB(config, map, A, B, del)` returns
true iff at least one loop-closure edge outgoing from `A` with `to() = B`
has switch variable at least
`constraint_min_switch_variable_value`; moreover an edge outgoing from
`A` whose target is not `B` is skipped and never affects the returned
flag. -/
theorem hasGoodEdge_iff_good_AtoB_edge (config : SelectionConfig)
    (m : VIMap) (A B : ℕ) (del : List ℕ) :
    ((hasGoodLoopClosureEdgeFromAToB config m A B del).1 = true ↔
      ∃ e ∈ m.edges, e.efrom = A ∧ e.eto = B ∧
        config.constraint_min_switch_variable_value ≤ e.switchVariable) ∧
    ∀ e₀ : LoopClosureEdge, e₀.eto ≠ B →
      (hasGoodLoopClosureEdgeFromAToB config
          ⟨e₀ :: m.edges, m.p_M_I⟩ A B del).1 =
        (hasGoodLoopClosureEdgeFromAToB config m A B del).1 := by
  refine ⟨hasGoodLoopClosureEdgeFromAToB_fst config m A B del, ?_⟩
  intro e₀ hne
  have h1 := hasGoodLoopClosureEdgeFromAToB_fst config
    ⟨e₀ :: m.edges, m.p_M_I⟩ A B del
  have h2 := hasGoodLoopClosureEdgeFromAToB_fst config m A B del
  cases hx : (hasGoodLoopClosureEdgeFromAToB config
      ⟨e₀ :: m.edges, m.p_M_I⟩ A B del).1 with
  | true =>
    rcases h1.mp hx with ⟨e, he, hA, hB, hsv⟩
    rcases List.mem_cons.mp he with rfl | he'
    · exact absurd hB hne
    · exact (h2.mpr ⟨e, he', hA, hB, hsv⟩).symm
  | false =>
    cases hy : (hasGoodLoopClosureEdgeFromAToB config m A B del).1 with
    | true =>
      rcases h2.mp hy with ⟨e, he, hA, hB, hsv⟩
      have := h1.mpr ⟨e, List.mem_cons_of_mem e₀ he, hA, hB, hsv⟩
      rw [hx] at this
      cases this
    | false => rfl

/-- C3: a valid candidate whose two vertices are joined by some
loop-closure edge (in either direction) meeting the switch-variable
threshold is removed from the collection by the quality pass whenever
`recompute_all_constraints` is false. -/
theorem quality_filter_removes_candidate_with_good_edge
    (config : SelectionConfig) (m : VIMap)
    (cands : List AlignmentCandidatePair) (c : AlignmentCandidatePair)
    (hv : c.isValid = true)
    (hgood : ∃ e ∈ m.edges, edgeBetween c e ∧
      config.constraint_min_switch_variable_value ≤ e.switchVariable)
    (hall : config.recompute_all_constraints = false) :
    c ∉ (filter_candidates_based_on_quality config m cands).2 := by
  intro hc
  have h2 : (filter_candidates_based_on_quality config m cands).2 =
      cands.filter (keepQuality config m) := by
    simp [filter_candidates_based_on_quality, qualityLoop_fst]
  rw [h2] at hc
  have hk := (List.mem_filter.mp hc).2
  have hpure : hasGoodPure config m c.candidate_A.closest_vertex_id
      c.candidate_B.closest_vertex_id = true := by
    rcases hgood with ⟨e, he, hdir, hsv⟩
    unfold hasGoodPure
    rcases hdir with ⟨hA, hB⟩ | ⟨hA, hB⟩
    · have hg := (hasGoodLoopClosureEdgeFromAToB_fst config m
        c.candidate_A.closest_vertex_id
        c.candidate_B.closest_vertex_id []).mpr ⟨e, he, hA, hB, hsv⟩
      simp [hg]
    · have hg := (hasGoodLoopClosureEdgeFromAToB_fst config m
        c.candidate_B.closest_vertex_id
        c.candidate_A.closest_vertex_id []).mpr ⟨e, he, hA, hB, hsv⟩
      simp [hg]
  rw [keepQuality, hv, hpure, hall] at hk
  simp at hk

/-- Witness for C3 at a concrete input: one valid candidate between
vertices 0 and 1, a good edge from 0 to 1, recompute-all off; the
candidate is dropped. -/
theorem quality_filter_removes_candidate_with_good_edge_witness :
    (exPair 0 1).isValid = true ∧
    (∃ e ∈ exMapEdges.edges, edgeBetween (exPair 0 1) e ∧
      exConfigOff.constraint_min_switch_variable_value ≤
        e.switchVariable) ∧
    exConfigOff.recompute_all_constraints = false ∧
    exPair 0 1 ∉ (filter_candidates_based_on_quality exConfigOff
      exMapEdges [exPair 0 1]).2 :=
  have hex : ∃ e ∈ exMapEdges.edges, edgeBetween (exPair 0 1) e ∧
      exConfigOff.constraint_min_switch_variable_value ≤ e.switchVariable :=
    ⟨⟨1, 0, 1, 5⟩, by decide, Or.inl ⟨rfl, rfl⟩, by decide⟩
  ⟨rfl, hex, rfl,
    quality_filter_removes_candidate_with_good_edge exConfigOff exMapEdges
      [exPair 0 1] (exPair 0 1) rfl hex rfl⟩

/-- C4: with `recompute_invalid_constraints = true` and
`recompute_all_constraints = false` (edge ids distinct), the quality pass
removes from the graph only loop-closure edges between the two vertices
of some valid candidate whose switch variable is below the threshold, and
every edge meeting the threshold stays in the graph. -/
theorem quality_filter_deletes_only_bad_inspected_edges
    (config : SelectionConfig) (m : VIMap)
    (cands : List AlignmentCandidatePair)
    (hall : config.recompute_all_constraints = false)
    (hinv : config.recompute_invalid_constraints = true)
    (hnodup : (m.edges.map LoopClosureEdge.id).Nodup) :
    (∀ e ∈ m.edges,
        e ∉ (filter_candidates_based_on_quality config m cands).1.edges →
        e.switchVariable < config.constraint_min_switch_variable_value ∧
          ∃ c ∈ cands, c.isValid = true ∧ edgeBetween c e) ∧
    (∀ e ∈ m.edges,
        config.constraint_min_switch_variable_value ≤ e.switchVariable →
        e ∈ (filter_candidates_based_on_quality config m cands).1.edges)
    := by
  have hedges : (filter_candidates_based_on_quality config m cands).1.edges
      = m.edges.filter
        (fun e => decide (e.id ∉ (qualityLoop config m cands []).2)) := by
    simp only [filter_candidates_based_on_quality, hinv, Bool.or_true,
      if_true]
  have hinj := List.inj_on_of_nodup_map hnodup
  have hdel : ∀ x ∈ (qualityLoop config m cands []).2,
      ∃ e ∈ m.edges, x = e.id ∧
        e.switchVariable < config.constraint_min_switch_variable_value ∧
        ∃ c ∈ cands, c.isValid = true ∧ edgeBetween c e := by
    intro x hx
    rcases qualityLoop_snd config m cands [] x hx with
      h0 | ⟨c, hc, hcv, e, he, hdir, hid, hcond⟩
    · cases h0
    · refine ⟨e, he, hid, ?_, c, hc, hcv, hdir⟩
      rcases hcond with ⟨hlt, _⟩ | hr
      · exact not_le.mp hlt
      · rw [hall] at hr; cases hr
  constructor
  · intro e he hne
    rw [hedges] at hne
    have hmem : e.id ∈ (qualityLoop config m cands []).2 := by
      by_contra hno
      exact hne (List.mem_filter.mpr ⟨he, by simpa using hno⟩)
    rcases hdel _ hmem with ⟨e', he', hid', hlt', c, hc, hcv, hdir⟩
    have heq : e = e' := hinj he he' hid'
    rw [heq]
    exact ⟨hlt', c, hc, hcv, hdir⟩
  · intro e he hsv
    rw [hedges]
    refine List.mem_filter.mpr ⟨he, ?_⟩
    simp only [decide_eq_true_eq]
    intro hmem
    rcases hdel _ hmem with ⟨e', he', hid', hlt', _⟩
    have heq : e = e' := hinj he he' hid'
    rw [heq] at hsv
    exact absurd hsv (not_le.mpr hlt')

/-- Witness for C4 at a concrete input: one bad and one good edge between
the candidate's vertices; only the bad one is removed and the good one
stays. -/
theorem quality_filter_deletes_only_bad_inspected_edges_witness :
    exConfigInv.recompute_all_constraints = false ∧
    exConfigInv.recompute_invalid_constraints = true ∧
    (exMapEdges.edges.map LoopClosureEdge.id).Nodup ∧
    ((∀ e ∈ exMapEdges.edges,
        e ∉ (filter_candidates_based_on_quality exConfigInv exMapEdges
          [exPair 0 1]).1.edges →
        e.switchVariable <
            exConfigInv.constraint_min_switch_variable_value ∧
          ∃ c ∈ [exPair 0 1], c.isValid = true ∧ edgeBetween c e) ∧
    (∀ e ∈ exMapEdges.edges,
        exConfigInv.constraint_min_switch_variable_value ≤
            e.switchVariable →
        e ∈ (filter_candidates_based_on_quality exConfigInv exMapEdges
          [exPair 0 1]).1.edges)) :=
  ⟨rfl, rfl, by decide,
    quality_filter_deletes_only_bad_inspected_edges exConfigInv exMapEdges
      [exPair 0 1] rfl rfl (by decide)⟩

/-- Squared distance is symmetric. -/
theorem distSq_comm (p q : Vec3) : distSq p q = distSq q p := by
  unfold distSq; ring

/-- The embedded strict distance comparison is symmetric. -/
theorem normGt_symm (p q : Vec3) (d : ℚ) : normGt p q d = normGt q p d := by
  unfold normGt; rw [distSq_comm]

/-- Invariant of the greedy distance loop: as long as the cap cannot cut
the scan short, every returned candidate is farther than `d` from every
already-accepted position, and the returned candidates are pairwise
farther than `d` apart. -/
theorem distanceLoop_invariant (k : ℕ) (d : ℚ) (m : VIMap) :
    ∀ (cands : List AlignmentCandidatePair) (acc : List Vec3),
      cands.length + acc.length ≤ k →
      (∀ q ∈ acc, ∀ c ∈ distanceLoop k d m cands acc,
          normGt (m.p_M_I c.candidate_A.closest_vertex_id) q d = true) ∧
      List.Pairwise (farApart d m) (distanceLoop k d m cands acc) := by
  intro cands
  induction cands with
  | nil =>
    intro acc h
    refine ⟨fun q hq c hc => absurd hc (by simp [distanceLoop]), ?_⟩
    simp [distanceLoop]
  | cons c rest ih =>
    intro acc h
    have hsucc : rest.length + 1 + acc.length ≤ k := by
      simpa [List.length_cons, Nat.succ_add, Nat.add_comm] using h
    cases hv : acc.all
        (fun p => normGt (m.p_M_I c.candidate_A.closest_vertex_id) p d) with
    | false =>
      have hout : distanceLoop k d m (c :: rest) acc =
          distanceLoop k d m rest acc := by
        simp only [distanceLoop, hv, Bool.false_eq_true, if_false]
      rw [hout]
      exact ih acc (by omega)
    | true =>
      have hlen : (acc ++
          [m.p_M_I c.candidate_A.closest_vertex_id]).length =
          acc.length + 1 := by simp
      by_cases hb : k ≤ acc.length + 1
      · have hrest : rest = [] := List.length_eq_zero.mp (by omega)
        subst hrest
        have hout : distanceLoop k d m [c] acc = [c] := by
          simp only [distanceLoop, hv, if_true, hlen]
          rw [if_pos hb]
        rw [hout]
        refine ⟨fun q hq c' hc' => ?_, List.pairwise_singleton _ _⟩
        rcases List.mem_singleton.mp hc' with rfl
        exact (List.all_eq_true.mp hv) q hq
      · have hout : distanceLoop k d m (c :: rest) acc =
            c :: distanceLoop k d m rest
              (acc ++ [m.p_M_I c.candidate_A.closest_vertex_id]) := by
          simp only [distanceLoop, hv, if_true, hlen]
          rw [if_neg hb]
        rw [hout]
        have h' : rest.length +
            (acc ++ [m.p_M_I c.candidate_A.closest_vertex_id]).length
              ≤ k := by
          rw [hlen]; omega
        obtain ⟨ih1, ih2⟩ := ih _ h'
        constructor
        · intro q hq c' hc'
          rcases List.mem_cons.mp hc' with rfl | hc'
          · exact (List.all_eq_true.mp hv) q hq
          · exact ih1 q (List.mem_append_left _ hq) c' hc'
        · refine List.Pairwise.cons (fun c' hc' => ?_) ih2
          have hfar := ih1 (m.p_M_I c.candidate_A.closest_vertex_id)
            (List.mem_append_right _ (List.mem_singleton_self _)) c' hc'
          rw [normGt_symm] at hfar
          exact hfar

/-- C1 (amended): when the cap is at least the number of candidates — so
the early stop can never leave candidates unexamined — every pair of
candidates retained by the distance strategy has `candidate_A` positions
strictly farther apart than `min_distance_to_next_candidate`. -/
theorem distance_filter_pairwise_separation (k : ℕ) (d : ℚ) (m : VIMap)
    (cands : List AlignmentCandidatePair) (h : cands.length ≤ k) :
    List.Pairwise (farApart d m)
      (filter_candidates_based_on_distance k d m cands) :=
  (distanceLoop_invariant k d m cands [] (by simpa using h)).2

/-- Witness for the amended C1 at a concrete input: five candidates, cap
5, minimum distance 2; the retained candidates are pairwise separated. -/
theorem distance_filter_pairwise_separation_witness :
    exCands5.length ≤ 5 ∧
    List.Pairwise (farApart 2 exMap5)
      (filter_candidates_based_on_distance 5 2 exMap5 exCands5) :=
  ⟨by decide,
    distance_filter_pairwise_separation 5 2 exMap5 exCands5 (by decide)⟩

/-- Counterexample to C1 as stated (for every cap): with cap 1, minimum
distance 2, and two candidates at the same position, the early stop
retains both candidates, whose positions are not farther than 2 apart. -/
theorem distance_filter_pairwise_separation_cex :
    filter_candidates_based_on_distance 1 2 exMapZero
        [exPair 0 1, exPair 1 2] = [exPair 0 1, exPair 1 2] ∧
    normGt (exMapZero.p_M_I (exPair 0 1).candidate_A.closest_vertex_id)
      (exMapZero.p_M_I (exPair 1 2).candidate_A.closest_vertex_id) 2 =
        false ∧
    ¬ List.Pairwise (farApart 2 exMapZero)
      (filter_candidates_based_on_distance 1 2 exMapZero
        [exPair 0 1, exPair 1 2]) := by
  refine ⟨by with_unfolding_all decide, by with_unfolding_all decide, ?_⟩
  intro hpw
  rw [show filter_candidates_based_on_distance 1 2 exMapZero
      [exPair 0 1, exPair 1 2] = [exPair 0 1, exPair 1 2] by
    with_unfolding_all decide] at hpw
  have h12 := (List.pairwise_cons.mp hpw).1 (exPair 1 2)
    (List.mem_singleton_self _)
  have hb : normGt
      (exMapZero.p_M_I (exPair 0 1).candidate_A.closest_vertex_id)
      (exMapZero.p_M_I (exPair 1 2).candidate_A.closest_vertex_id) 2 =
        true := h12
  exact absurd hb (by with_unfolding_all decide)

/-- C6: once accepting the current candidate makes the accepted count
reach the (positive) cap, the distance-strategy loop keeps that candidate
and stops, returning every not-yet-examined candidate unchanged. -/
theorem distance_filter_stops_at_cap (k : ℕ) (d : ℚ) (m : VIMap)
    (c : AlignmentCandidatePair) (rest : List AlignmentCandidatePair)
    (acc : List Vec3) (_hk : 0 < k)
    (hfar : acc.all (fun p =>
      normGt (m.p_M_I c.candidate_A.closest_vertex_id) p d) = true)
    (hcap : k ≤ acc.length + 1) :
    distanceLoop k d m (c :: rest) acc = c :: rest := by
  simp only [distanceLoop, hfar, if_true]
  rw [if_pos (by simpa using hcap)]

/-- Witness for C6 at a concrete input: cap 1 is reached by accepting the
first candidate, and the second candidate is left untouched. -/
theorem distance_filter_stops_at_cap_witness :
    0 < 1 ∧
    (([] : List Vec3).all (fun p =>
      normGt (exMapZero.p_M_I (exPair 0 1).candidate_A.closest_vertex_id)
        p 2) = true) ∧
    1 ≤ ([] : List Vec3).length + 1 ∧
    distanceLoop 1 2 exMapZero (exPair 0 1 :: [exPair 1 2]) [] =
      exPair 0 1 :: [exPair 1 2] :=
  ⟨by decide, by decide, by decide,
    distance_filter_stops_at_cap 1 2 exMapZero (exPair 0 1) [exPair 1 2]
      [] (by decide) (by decide) (by decide)⟩

/-- Counting the members of a duplicate-free list `S` of indices below `n`
inside `range n` yields exactly the length of `S`. -/
theorem countP_range_mem (S : List ℕ) (n : ℕ) (hS : S.Nodup)
    (hlt : ∀ x ∈ S, x < n) :
    (List.range n).countP (fun i => decide (i ∈ S)) = S.length := by
  rw [List.countP_eq_length_filter]
  have hperm : List.Perm
      ((List.range n).filter (fun i => decide (i ∈ S))) S := by
    rw [List.perm_ext_iff_of_nodup
      (List.Nodup.filter _ (List.nodup_range n)) hS]
    intro a
    simp only [List.mem_filter, List.mem_range, decide_eq_true_eq]
    exact ⟨fun h => h.2, fun h => ⟨hlt a h, h⟩⟩
  exact hperm.length_eq

/-- Length of the random filter output: `min n k`, for any injected
shuffle that is a permutation of the index range. -/
theorem filter_candidates_randomly_length (k : ℕ) (perm : List ℕ)
    (cands : List AlignmentCandidatePair)
    (hperm : perm.Perm (List.range cands.length)) :
    (filter_candidates_randomly k perm cands).length =
      min cands.length k := by
  have hpermNodup : perm.Nodup :=
    hperm.symm.nodup (List.nodup_range cands.length)
  unfold filter_candidates_randomly
  rw [List.length_map, ← List.countP_eq_length_filter]
  have h1 : (cands.enum).countP
      (fun p => decide (p.1 ∉ perm.take
        (cands.length - min cands.length k))) =
      (List.range cands.length).countP
        (fun i => decide (i ∉ perm.take
          (cands.length - min cands.length k))) := by
    conv_rhs => rw [← List.enum_map_fst cands]
    rw [List.countP_map]
    rfl
  rw [h1]
  have hSnodup : (perm.take (cands.length - min cands.length k)).Nodup :=
    List.Nodup.sublist (List.take_sublist _ _) hpermNodup
  have hSlt : ∀ x ∈ perm.take (cands.length - min cands.length k),
      x < cands.length := fun x hx =>
    List.mem_range.mp (hperm.mem_iff.mp (List.take_subset _ _ hx))
  have hSlen : (perm.take (cands.length - min cands.length k)).length =
      cands.length - min cands.length k := by
    rw [List.length_take, hperm.length_eq, List.length_range]
    omega
  have hin := countP_range_mem
    (perm.take (cands.length - min cands.length k)) cands.length
    hSnodup hSlt
  have hpart := List.length_eq_countP_add_countP
    (fun i => decide (i ∈ perm.take (cands.length - min cands.length k)))
    (List.range cands.length)
  rw [List.length_range, hin, hSlen] at hpart
  have hqq := List.countP_congr (l := List.range cands.length)
    (q := fun i => decide
      (i ∉ perm.take (cands.length - min cands.length k)))
    (p := fun a => decide ¬(decide
      (a ∈ perm.take (cands.length - min cands.length k)) = true))
    (fun x _ => by simp)
  rw [hqq] at hpart
  omega

/-- C5: for every shuffle outcome (any permutation of the index range),
the random strategy leaves exactly `k` candidates when `k < size`, leaves
the collection unchanged when `k ≥ size`, and every survivor is one of
the original elements. -/
theorem random_filter_cap (k : ℕ) (perm : List ℕ)
    (cands : List AlignmentCandidatePair)
    (hperm : perm.Perm (List.range cands.length)) :
    (k < cands.length →
      (filter_candidates_randomly k perm cands).length = k) ∧
    (cands.length ≤ k →
      filter_candidates_randomly k perm cands = cands) ∧
    (∀ c ∈ filter_candidates_randomly k perm cands, c ∈ cands) := by
  refine ⟨?_, ?_, ?_⟩
  · intro hk
    rw [filter_candidates_randomly_length k perm cands hperm]
    omega
  · intro hk
    simp only [filter_candidates_randomly]
    have h0 : cands.length - min cands.length k = 0 := by omega
    rw [h0, List.take_zero]
    have hall : ∀ p ∈ cands.enum,
        decide ((p : ℕ × AlignmentCandidatePair).1 ∉ ([] : List ℕ)) =
          true := by
      intro p _
      simp
    rw [List.filter_eq_self.mpr hall]
    exact List.enum_map_snd cands
  · intro c hc
    unfold filter_candidates_randomly at hc
    rcases List.mem_map.mp hc with ⟨p, hp, rfl⟩
    exact List.snd_mem_of_mem_enumFrom (List.mem_filter.mp hp).1

/-- Witness for C5 at a concrete input: two candidates, shuffle `[1, 0]`,
instantiating the cap behaviour. -/
theorem random_filter_cap_witness :
    ([1, 0] : List ℕ).Perm
        (List.range ([exPair 0 1, exPair 1 2] : List _).length) ∧
    ((1 < ([exPair 0 1, exPair 1 2] : List _).length →
      (filter_candidates_randomly 1 [1, 0]
        [exPair 0 1, exPair 1 2]).length = 1) ∧
    (([exPair 0 1, exPair 1 2] : List _).length ≤ 1 →
      filter_candidates_randomly 1 [1, 0] [exPair 0 1, exPair 1 2] =
        [exPair 0 1, exPair 1 2]) ∧
    (∀ c ∈ filter_candidates_randomly 1 [1, 0] [exPair 0 1, exPair 1 2],
      c ∈ [exPair 0 1, exPair 1 2])) :=
  ⟨by decide, random_filter_cap 1 [1, 0] [exPair 0 1, exPair 1 2]
    (by decide)⟩

/-- C7: with the distance strategy and cap 0, a non-empty candidate set
passes through the strategy pass unchanged (the first candidate is
accepted and the cap check stops the loop before any erase), whereas the
random filter with cap 0 empties the set. -/
theorem distance_zero_cap_keeps_all (config : SelectionConfig) (m : VIMap)
    (perm : List ℕ) (c : AlignmentCandidatePair)
    (rest : List AlignmentCandidatePair)
    (hs : config.filter_strategy = "distance")
    (hm : config.max_number_of_candidates = 0)
    (hperm : perm.Perm (List.range (c :: rest).length)) :
    filter_candidates_based_on_strategy config m perm (c :: rest) =
        c :: rest ∧
    filter_candidates_randomly 0 perm (c :: rest) = [] := by
  constructor
  · unfold filter_candidates_based_on_strategy
    rw [hm, hs]
    rw [if_neg (by omega : ¬ (0 : ℤ) < 0)]
    rw [if_neg (by decide : ¬ ("distance" = "random"))]
    rw [if_pos rfl]
    show distanceLoop 0 config.min_distance_to_next_candidate m
      (c :: rest) [] = c :: rest
    simp [distanceLoop]
  · have hl : perm.length = (c :: rest).length := by
      rw [hperm.length_eq, List.length_range]
    simp only [filter_candidates_randomly, Nat.min_zero, Nat.sub_zero]
    rw [List.take_of_length_le (le_of_eq hl), List.map_eq_nil_iff,
      List.filter_eq_nil_iff]
    intro p hp
    have h1 : p.1 < (c :: rest).length := by
      simpa using List.fst_lt_add_of_mem_enumFrom hp
    simp only [decide_eq_true_eq]
    exact fun hno => hno (hperm.mem_iff.mpr (List.mem_range.mpr h1))

/-- Witness for C7 at a concrete input: two candidates at the origin, cap
0: the distance pass keeps both, the random pass deletes both. -/
theorem distance_zero_cap_keeps_all_witness :
    exConfigCap0.filter_strategy = "distance" ∧
    exConfigCap0.max_number_of_candidates = 0 ∧
    ([1, 0] : List ℕ).Perm
      (List.range (exPair 0 1 :: [exPair 1 2]).length) ∧
    (filter_candidates_based_on_strategy exConfigCap0 exMapZero [1, 0]
        (exPair 0 1 :: [exPair 1 2]) = exPair 0 1 :: [exPair 1 2] ∧
      filter_candidates_randomly 0 [1, 0]
        (exPair 0 1 :: [exPair 1 2]) = []) :=
  ⟨rfl, rfl, by decide,
    distance_zero_cap_keeps_all exConfigCap0 exMapZero [1, 0] (exPair 0 1)
      [exPair 1 2] rfl rfl (by decide)⟩

/-- C9: a negative `max_number_of_candidates` disables the strategy pass
entirely: the candidate collection is returned unchanged for every
strategy string, graph and shuffle. -/
theorem negative_cap_disables_strategy (config : SelectionConfig)
    (m : VIMap) (perm : List ℕ) (cands : List AlignmentCandidatePair)
    (h : config.max_number_of_candidates < 0) :
    filter_candidates_based_on_strategy config m perm cands = cands := by
  unfold filter_candidates_based_on_strategy
  rw [if_pos h]

/-- Witness for C9 at a concrete input: cap `-1` leaves the collection
untouched. -/
theorem negative_cap_disables_strategy_witness :
    exConfigOff.max_number_of_candidates < 0 ∧
    filter_candidates_based_on_strategy exConfigOff exMapZero []
      [exPair 0 1] = [exPair 0 1] :=
  ⟨by decide,
    negative_cap_disables_strategy exConfigOff exMapZero [] [exPair 0 1]
      (by decide)⟩

/-- C10: an unrecognized `filter_strategy` (with a nonnegative cap) makes
the strategy pass remove nothing, and the overall selection still
completes successfully, returning the quality-filtered set unchanged. -/
theorem unknown_strategy_no_filtering (config : SelectionConfig)
    (m : VIMap) (perm : List ℕ) (cands : List AlignmentCandidatePair)
    (h1 : config.filter_strategy ≠ "random")
    (h2 : config.filter_strategy ≠ "distance")
    (h3 : 0 ≤ config.max_number_of_candidates) :
    filter_candidates_based_on_strategy config m perm cands = cands ∧
    selectAlignmentCandidatePairs config m perm cands =
      (true, (filter_candidates_based_on_quality config m cands).1,
        (filter_candidates_based_on_quality config m cands).2) := by
  have hstrat : ∀ (mm : VIMap) (cs : List AlignmentCandidatePair),
      filter_candidates_based_on_strategy config mm perm cs = cs := by
    intro mm cs
    unfold filter_candidates_based_on_strategy
    rw [if_neg (not_lt.mpr h3), if_neg h1, if_neg h2]
  refine ⟨hstrat m cands, ?_⟩
  simp only [selectAlignmentCandidatePairs]
  rw [hstrat]

/-- Witness for C10 at a concrete input: strategy `"foo"`, cap 0. -/
theorem unknown_strategy_no_filtering_witness :
    exConfigFoo.filter_strategy ≠ "random" ∧
    exConfigFoo.filter_strategy ≠ "distance" ∧
    0 ≤ exConfigFoo.max_number_of_candidates ∧
    (filter_candidates_based_on_strategy exConfigFoo exMapZero []
        [exPair 0 1] = [exPair 0 1] ∧
      selectAlignmentCandidatePairs exConfigFoo exMapZero []
          [exPair 0 1] =
        (true,
          (filter_candidates_based_on_quality exConfigFoo exMapZero
            [exPair 0 1]).1,
          (filter_candidates_based_on_quality exConfigFoo exMapZero
            [exPair 0 1]).2)) :=
  ⟨by decide, by decide, by decide,
    unknown_strategy_no_filtering exConfigFoo exMapZero [] [exPair 0 1]
      (by decide) (by decide) (by decide)⟩

/-- C2: the end-to-end example: five valid candidates, no edges, distance
strategy with minimum distance 2 and cap 3, positions
(0,0,0),(1,0,0),(5,0,0),(5,1,0),(10,0,0): selection succeeds and retains
exactly the candidates at (0,0,0), (5,0,0) and (10,0,0), in that order. -/
theorem select_end_to_end_example :
    (selectAlignmentCandidatePairs exConfig5 exMap5 [] exCands5).1 =
        true ∧
    (selectAlignmentCandidatePairs exConfig5 exMap5 [] exCands5).2.2 =
      [exPair 0 10, exPair 2 12, exPair 4 14] ∧
    (selectAlignmentCandidatePairs exConfig5 exMap5 []
        exCands5).2.2.length = 3 := by
  refine ⟨rfl, ?_, ?_⟩ <;> with_unfolding_all decide

end DenseMapping
